import Mathlib

/-!
Verification of the throque repository: a two-stack FIFO queue
(`lib/Queue.js`), a callback-to-promise adapter (`lib/promisify.js`),
and an admission-controlled throttling wrapper (`lib/throque.js`).

JS arrays used as stacks are modelled as Lean lists whose last element is
the array's last index: `push` appends at the tail, `pop` removes the tail.
-/

namespace Throque

/-- The two-stack queue of `lib/Queue.js`.  `stack1` receives enqueued
elements (`push`); `stack2` holds reversed elements that `dequeue` pops.
The `length` field mirrors the class's explicitly maintained counter. -/
structure Queue (α : Type) where
  stack1 : List α
  stack2 : List α
  length : Nat
deriving DecidableEq

namespace Queue

/-- `constructor()`: both stacks empty, length 0. -/
def new {α : Type} : Queue α := ⟨[], [], 0⟩

/-- `enqueue(...values)`: pushes all values onto `stack1` in order,
adds their count to `length`, and returns the new length. -/
def enqueue {α : Type} (q : Queue α) (values : List α) : Queue α × Nat :=
  (⟨q.stack1 ++ values, q.stack2, q.length + values.length⟩, q.length + values.length)

/-- `dequeue()`: returns `undefined` (here `none`) on an empty queue without
touching any field; otherwise, when `stack2` is empty, first transfers every
element of `stack1` onto `stack2` via repeated `pop`/`push` (which reverses
`stack1`), then decrements `length` and pops `stack2`. -/
def dequeue {α : Type} (q : Queue α) : Option α × Queue α :=
  if q.length = 0 then (none, q)
  else
    let s1 : List α := if q.stack2.isEmpty then [] else q.stack1
    let s2 : List α := if q.stack2.isEmpty then q.stack1.reverse else q.stack2
    (s2.getLast?, ⟨s1, s2.dropLast, q.length - 1⟩)

/-- Abstraction: the FIFO contents of the queue, front first.  `stack2` is
popped from its tail, so its reverse comes first, followed by `stack1`. -/
def toList {α : Type} (q : Queue α) : List α := q.stack2.reverse ++ q.stack1

/-- Well-formedness: the maintained `length` counter agrees with the actual
number of stored elements.  Holds for every queue built by the class's own
methods starting from the constructor. -/
def WF {α : Type} (q : Queue α) : Prop :=
  q.length = q.stack1.length + q.stack2.length

theorem new_wf {α : Type} : (new : Queue α).WF := rfl

theorem toList_new {α : Type} : (new : Queue α).toList = [] := rfl

theorem enqueue_wf {α : Type} (q : Queue α) (vs : List α) (h : q.WF) :
    (q.enqueue vs).1.WF := by
  simp [WF, enqueue] at *
  omega

theorem enqueue_toList {α : Type} (q : Queue α) (vs : List α) :
    (q.enqueue vs).1.toList = q.toList ++ vs := by
  simp [toList, enqueue]

theorem toList_length {α : Type} (q : Queue α) (h : q.WF) :
    q.toList.length = q.length := by
  simp [toList, WF] at *
  omega

theorem dequeue_empty {α : Type} (q : Queue α) (h : q.length = 0) :
    q.dequeue = (none, q) := by
  simp [dequeue, h]

theorem reverse_dropLast_reverse {α : Type} (l : List α) :
    (l.reverse.dropLast).reverse = l.tail := by
  cases l with
  | nil => simp
  | cons a t =>
      simp [List.dropLast_concat]

theorem dequeue_nonempty {α : Type} (q : Queue α) (h : q.WF)
    (hne : q.length ≠ 0) :
    (q.dequeue).1 = q.toList.head? ∧
    (q.dequeue).2.toList = q.toList.tail ∧
    (q.dequeue).2.WF := by
  rcases q with ⟨s1, s2, n⟩
  simp only [WF] at h
  simp only [WF] at hne
  rcases List.eq_nil_or_concat s2 with h2 | ⟨u, b, h2⟩
  · subst h2
    have hs1 : s1 ≠ [] := by
      intro hh
      subst hh
      simp at h
      omega
    rcases s1 with _ | ⟨a, t⟩
    · exact absurd rfl hs1
    · simp only [dequeue, toList, WF, if_neg hne, List.isEmpty_nil, if_pos,
        List.reverse_nil, List.nil_append, List.append_nil, List.reverse_cons]
      refine ⟨?_, ?_, ?_⟩
      · simp
      · simp [List.dropLast_concat]
      · simp at h ⊢
        omega
  · subst h2
    have h2e : (u ++ [b]).isEmpty = false := by simp
    simp only [dequeue, toList, WF, if_neg hne, h2e, Bool.false_eq_true,
      if_false]
    refine ⟨?_, ?_, ?_⟩
    · simp
    · simp [List.dropLast_concat]
    · simp at h ⊢
      omega

/-- One client operation on a queue: an `enqueue(...values)` call or a
`dequeue()` call. -/
inductive QOp (α : Type) where
  | enq (vs : List α)
  | deq
deriving DecidableEq

/-- Runs a sequence of operations on a concrete two-stack queue, collecting
in order the value returned by each `dequeue` call. -/
def runQueue {α : Type} : Queue α → List (QOp α) → Queue α × List (Option α)
  | q, [] => (q, [])
  | q, .enq vs :: ops => runQueue (q.enqueue vs).1 ops
  | q, .deq :: ops =>
      let p := q.dequeue
      let r := runQueue p.2 ops
      (r.1, p.1 :: r.2)

/-- The reference FIFO: a plain list, front first.  `enqueue` appends at the
back; `dequeue` returns the head (the oldest not-yet-dequeued element, i.e.
exact arrival order) and keeps the tail. -/
def runModel {α : Type} : List α → List (QOp α) → List α × List (Option α)
  | l, [] => (l, [])
  | l, .enq vs :: ops => runModel (l ++ vs) ops
  | l, .deq :: ops =>
      let r := runModel l.tail ops
      (r.1, l.head? :: r.2)

theorem runQueue_refines {α : Type} (ops : List (QOp α)) :
    ∀ q : Queue α, q.WF →
      (runQueue q ops).2 = (runModel q.toList ops).2 ∧
      (runQueue q ops).1.toList = (runModel q.toList ops).1 ∧
      (runQueue q ops).1.WF := by
  induction ops with
  | nil => intro q hq; exact ⟨rfl, rfl, hq⟩
  | cons op ops ih =>
      intro q hq
      cases op with
      | enq vs =>
          have h1 := ih (q.enqueue vs).1 (Queue.enqueue_wf q vs hq)
          simpa [runQueue, runModel, Queue.enqueue_toList] using h1
      | deq =>
          by_cases h0 : q.length = 0
          · have hq0 : q.toList = [] := by
              have := Queue.toList_length q hq
              rw [h0] at this
              exact List.length_eq_zero.mp this
            have hd := Queue.dequeue_empty q h0
            have h1 := ih q hq
            simp [runQueue, runModel, hd, hq0, h1.1, h1.2.1, h1.2.2]
          · obtain ⟨hfst, hsnd, hwf⟩ := Queue.dequeue_nonempty q hq h0
            have h1 := ih (q.dequeue).2 hwf
            rw [hsnd] at h1
            simp [runQueue, runModel, hfst, h1.1, h1.2.1, h1.2.2]

end Queue

/-- Claim C4: for every sequence of enqueue and dequeue operations, however
interleaved, the two-stack queue observes exact FIFO arrival order — the
n-th successful dequeue returns the oldest not-yet-dequeued item.  Stated as
a refinement: running any operation sequence from the empty two-stack queue
produces exactly the dequeue answers of the reference list FIFO whose
dequeue always removes the current head (the oldest remaining element), and
the final abstract contents agree as well. -/
theorem queue_fifo_order {α : Type} (ops : List (Queue.QOp α)) :
    (Queue.runQueue (Queue.new : Queue α) ops).2 =
      (Queue.runModel ([] : List α) ops).2 ∧
    (Queue.runQueue (Queue.new : Queue α) ops).1.toList =
      (Queue.runModel ([] : List α) ops).1 := by
  have h := Queue.runQueue_refines ops (Queue.new : Queue α) Queue.new_wf
  rw [Queue.toList_new] at h
  exact ⟨h.1, h.2.1⟩

/-- Claim C8: dequeuing an empty queue (length 0) returns the empty signal
(`undefined`, modelled as `none`), leaves the length at 0 and both stacks
untouched — the returned queue is the very same record — and, being a total
function, never raises a failure. -/
theorem dequeue_empty_is_noop {α : Type} (q : Queue α) (h : q.length = 0) :
    q.dequeue = (none, q) := by
  simp [Queue.dequeue, h]

/-- Witness for C8 at the freshly constructed empty queue over `Nat`. -/
theorem dequeue_empty_is_noop_witness :
    (Queue.new : Queue Nat).length = 0 ∧
    (Queue.new : Queue Nat).dequeue = (none, Queue.new) :=
  ⟨rfl, dequeue_empty_is_noop (Queue.new : Queue Nat) rfl⟩

/-! ## lib/promisify.js -/

/-- How a promise produced by `promisify` settles.  `rejected e` is
`reject(err)`; `resolvedArray data` is `resolve(data)` with the whole
argument array; `resolvedValue v` is `resolve(data[0])`, where `v = none`
models `undefined` when the callback received no result argument. -/
inductive Settled (E V : Type) where
  | rejected (e : E)
  | resolvedArray (data : List V)
  | resolvedValue (v : Option V)
deriving DecidableEq

/-- `lib/promisify.js`.  A callback-style function is modelled by what it
passes to its final error-first callback for given arguments: an optional
(truthy) error and the list of result values `...data`.  The promisified
function calls it and settles the returned promise exactly as the source:
`if (err) reject(err); else if (data.length > 1) resolve(data);
else resolve(data[0])`. -/
def promisify {A E V : Type} (functionToPromisify : A → Option E × List V)
    (args : A) : Settled E V :=
  match functionToPromisify args with
  | (some e, _) => .rejected e
  | (none, data) =>
      if 1 < data.length then .resolvedArray data
      else .resolvedValue data.head?

/-- Claim C5: for every callback-style function adapted by `promisify` and
every invocation of its callback: a non-null error rejects the promise with
that error; otherwise more than one result value resolves with the ordered
list of those values; otherwise it resolves with the single value, or with
`undefined` (`none`) when no result value was passed. -/
theorem promisify_contract {A E V : Type}
    (functionToPromisify : A → Option E × List V) (args : A) :
    (∀ e : E, (functionToPromisify args).1 = some e →
      promisify functionToPromisify args = .rejected e) ∧
    ((functionToPromisify args).1 = none →
      1 < (functionToPromisify args).2.length →
      promisify functionToPromisify args =
        .resolvedArray (functionToPromisify args).2) ∧
    ((functionToPromisify args).1 = none →
      ∀ v : V, (functionToPromisify args).2 = [v] →
      promisify functionToPromisify args = .resolvedValue (some v)) ∧
    ((functionToPromisify args).1 = none →
      (functionToPromisify args).2 = [] →
      promisify functionToPromisify args = .resolvedValue none) := by
  refine ⟨?_, ?_, ?_, ?_⟩
  · intro e he
    rcases hf : functionToPromisify args with ⟨err, data⟩
    rw [hf] at he
    simp at he
    simp [promisify, hf, he]
  · intro hnone hlen
    rcases hf : functionToPromisify args with ⟨err, data⟩
    rw [hf] at hnone hlen
    simp at hnone hlen
    subst hnone
    simp [promisify, hf, hlen]
  · intro hnone v hv
    rcases hf : functionToPromisify args with ⟨err, data⟩
    rw [hf] at hnone hv
    simp at hnone
    subst hnone
    subst hv
    simp [promisify, hf]
  · intro hnone hv
    rcases hf : functionToPromisify args with ⟨err, data⟩
    rw [hf] at hnone hv
    simp at hnone
    subst hnone
    subst hv
    simp [promisify, hf]

/-- Witness for C5: a callback invoked as `(null, 10, 20)` resolves with the
array `[10, 20]`; invoked as `(some 3)` it rejects with `3`. -/
theorem promisify_contract_witness :
    promisify (fun _ : Unit => ((none : Option Nat), [10, 20])) () =
      .resolvedArray [10, 20] ∧
    promisify (fun _ : Unit => ((some 3 : Option Nat), ([] : List Nat))) () =
      .rejected 3 :=
  ⟨(promisify_contract (fun _ : Unit => ((none : Option Nat), [10, 20]))
      ()).2.1 rfl (by decide),
   (promisify_contract (fun _ : Unit => ((some 3 : Option Nat), ([] : List Nat)))
      ()).1 3 rfl⟩

/-! ## lib/throque.js — single-controller admission semantics

The admission controller is modelled as a state machine over atomic steps.
JavaScript is single-threaded: every synchronous run — from a call on the
throttled function, or from the continuation after `await callWhenReady()`
settles — executes without interleaving.  The two step kinds are therefore:

* `Ev.call c`: the throttled function is invoked (call id `c`).
  `addToQueueAndWait` enqueues `{ callWhenReady, resolve, reject }` and runs
  `execQueue()` synchronously up to its `await`.
* `Ev.settle c r`: the promise awaited for in-flight call `c` settles with
  `r`.  The continuation resolves or rejects the caller's promise, runs
  `activeCalls -= 1` and re-runs `execQueue()` synchronously.

`execQueue` itself: returns if the queue is empty or `activeCalls >= maxCalls`;
otherwise dequeues the head, increments `activeCalls`, and invokes the
dequeued `callWhenReady`.  When the underlying function's return value is a
native promise, execution suspends at the `await` (the admitted call is now
in flight).  When it is not, `callWhenReady` throws synchronously, the
`catch` rejects the caller's promise with the usage error, `activeCalls` is
decremented back, and the trailing `execQueue()` continues draining — hence
the recursion in the non-promise branch below (with `activeCalls` unchanged
net of the increment/decrement pair). -/

/-- The kind of value the underlying `functionToThrottle` returns for a given
call, as far as the check `fttPromise && fttPromise.constructor == Promise`
can distinguish: a native `Promise` instance (truthy, `constructor`
identically `Promise`); an instance of a `Promise` subclass (truthy, but its
`constructor` is the subclass, not `Promise`); a non-promise thenable
(truthy, has `then`, `constructor` not `Promise`); some other truthy
non-thenable value; or a falsy value such as `undefined`. -/
inductive JSRet where
  | nativePromise
  | subclassPromise
  | thenable
  | plainValue
  | nullish
deriving DecidableEq

/-- The source's validity test
`fttPromise && fttPromise.constructor == Promise`: true exactly for a native
`Promise` instance. -/
def returnsNativePromise : JSRet → Bool
  | .nativePromise => true
  | _ => false

/-- The exact message of the `Error` thrown by `callWhenReady` when the
underlying function's return value fails the native-promise test. -/
def usageErrorMsg : String :=
  "functionToThrottle does not return a promise. Either set returnsPromise flag to false (not reccomended), or promisify your function to throttle"

/-- How a caller's promise can be rejected: with the underlying operation's
own error, passed through `reject(e)` verbatim, or with the synchronous
usage `Error` thrown by `callWhenReady`. -/
inductive ThroqueError (E : Type) where
  | opError (e : E)
  | usageError (msg : String)
deriving DecidableEq

/-- Controller state for one wrapped operation, plus ghost history fields.
`callQueue`, `activeCalls` mirror the module variables; calls are named by
ids (`Nat`).  Ghost fields: `running` — ids currently awaited (in flight);
`arrivals` — every id in arrival order; `started` — ids in the order their
`callWhenReady` was invoked; `results` — each settled caller promise with
its outcome, in settlement order. -/
structure St (E V : Type) where
  callQueue : List Nat
  activeCalls : Nat
  running : List Nat
  arrivals : List Nat
  started : List Nat
  results : List (Nat × Except (ThroqueError E) V)

/-- The initial module state: empty queue, `activeCalls = 0`. -/
def initSt {E V : Type} : St E V := ⟨[], 0, [], [], [], []⟩

/-- Worker for `execQueue`, recursing structurally on the pending queue;
the remaining five arguments are the other state fields. -/
def execQueueGo {E V : Type} (k : Nat) (beh : Nat → JSRet) :
    List Nat → Nat → List Nat → List Nat → List Nat →
    List (Nat × Except (ThroqueError E) V) → St E V
  | [], a, r, ar, st, res => ⟨[], a, r, ar, st, res⟩
  | c :: rest, a, r, ar, st, res =>
      if k ≤ a then ⟨c :: rest, a, r, ar, st, res⟩
      else if returnsNativePromise (beh c) then
        ⟨rest, a + 1, r ++ [c], ar, st ++ [c], res⟩
      else
        execQueueGo k beh rest a r ar (st ++ [c])
          (res ++ [(c, Except.error (ThroqueError.usageError usageErrorMsg))])

/-- The synchronous part of `execQueue` for ceiling `k` and environment
`beh` (what the underlying function returns per call id), as described in
the section header: returns at once when the queue is empty or
`activeCalls >= maxCalls`; otherwise dequeues the head and invokes it — one
admission per run, except that calls failing the native-promise test are
rejected synchronously and draining continues. -/
def execQueue {E V : Type} (k : Nat) (beh : Nat → JSRet) (s : St E V) :
    St E V :=
  execQueueGo k beh s.callQueue s.activeCalls s.running s.arrivals
    s.started s.results

/-- An atomic step: a new invocation of the throttled function, or the
settlement of the promise awaited for an in-flight call. -/
inductive Ev (E V : Type) where
  | call (c : Nat)
  | settle (c : Nat) (r : Except E V)

/-- `try { resolve(await callWhenReady()) } catch (e) { reject(e) }`:
the caller's promise settles exactly as the underlying promise did. -/
def settleOutcome {E V : Type} : Except E V → Except (ThroqueError E) V
  | .ok v => .ok v
  | .error e => .error (.opError e)

/-- One atomic step.  `call c` appends to the queue and runs `execQueue`'s
synchronous part; `settle c r` (ignored unless `c` is in flight) records the
caller promise's settlement, decrements `activeCalls`, and runs `execQueue`
again. -/
def step {E V : Type} (k : Nat) (beh : Nat → JSRet) (s : St E V) :
    Ev E V → St E V
  | .call c =>
      execQueue k beh
        { s with callQueue := s.callQueue ++ [c],
                 arrivals := s.arrivals ++ [c] }
  | .settle c r =>
      if c ∈ s.running then
        execQueue k beh
          { s with running := s.running.erase c,
                   activeCalls := s.activeCalls - 1,
                   results := s.results ++ [(c, settleOutcome r)] }
      else s

/-- The state after a whole trace of atomic steps from the initial state. -/
def run {E V : Type} (k : Nat) (beh : Nat → JSRet) (es : List (Ev E V)) :
    St E V :=
  es.foldl (step k beh) initSt

/-! ### Unfolding lemmas for `execQueue` -/

theorem execQueue_nil {E V : Type} (k : Nat) (beh : Nat → JSRet) (s : St E V)
    (h : s.callQueue = []) : execQueue k beh s = s := by
  rcases s with ⟨q, a, r, ar, st, res⟩
  simp only at h
  subst h
  rfl

theorem execQueue_full {E V : Type} (k : Nat) (beh : Nat → JSRet)
    (s : St E V) (c : Nat) (rest : List Nat)
    (h : s.callQueue = c :: rest) (hk : k ≤ s.activeCalls) :
    execQueue k beh s = s := by
  rcases s with ⟨q, a, r, ar, st, res⟩
  simp only at h hk
  subst h
  simp [execQueue, execQueueGo, hk]

theorem execQueue_start {E V : Type} (k : Nat) (beh : Nat → JSRet)
    (s : St E V) (c : Nat) (rest : List Nat)
    (h : s.callQueue = c :: rest) (hk : ¬ k ≤ s.activeCalls)
    (hp : returnsNativePromise (beh c) = true) :
    execQueue k beh s =
      { s with callQueue := rest,
               activeCalls := s.activeCalls + 1,
               running := s.running ++ [c],
               started := s.started ++ [c] } := by
  rcases s with ⟨q, a, r, ar, st, res⟩
  simp only at h hk
  subst h
  simp [execQueue, execQueueGo, hk, hp]

theorem execQueue_bad {E V : Type} (k : Nat) (beh : Nat → JSRet)
    (s : St E V) (c : Nat) (rest : List Nat)
    (h : s.callQueue = c :: rest) (hk : ¬ k ≤ s.activeCalls)
    (hp : ¬ returnsNativePromise (beh c) = true) :
    execQueue k beh s =
      execQueue k beh
        { s with callQueue := rest,
                 started := s.started ++ [c],
                 results := s.results ++
                   [(c, Except.error (ThroqueError.usageError usageErrorMsg))] } := by
  rcases s with ⟨q, a, r, ar, st, res⟩
  simp only at h hk
  subst h
  simp [execQueue, execQueueGo, hk, hp]

/-- Case analysis on `execQueue`'s recursion, mirroring its three exits and
its recursive self-call on the synchronously rejected head. -/
theorem execQueue_rec {E V : Type} (k : Nat) (beh : Nat → JSRet)
    (motive : St E V → Prop)
    (case1 : ∀ s : St E V, s.callQueue = [] → motive s)
    (case2 : ∀ (s : St E V) (c : Nat) (rest : List Nat),
      s.callQueue = c :: rest → k ≤ s.activeCalls → motive s)
    (case3 : ∀ (s : St E V) (c : Nat) (rest : List Nat),
      s.callQueue = c :: rest → ¬ k ≤ s.activeCalls →
      returnsNativePromise (beh c) = true → motive s)
    (case4 : ∀ (s : St E V) (c : Nat) (rest : List Nat),
      s.callQueue = c :: rest → ¬ k ≤ s.activeCalls →
      ¬ returnsNativePromise (beh c) = true →
      motive { s with callQueue := rest,
                      started := s.started ++ [c],
                      results := s.results ++
                        [(c, Except.error
                          (ThroqueError.usageError usageErrorMsg))] } →
      motive s) :
    ∀ s : St E V, motive s := by
  have key : ∀ (n : Nat) (s : St E V), s.callQueue.length ≤ n → motive s := by
    intro n
    induction n with
    | zero =>
        intro s hlen
        refine case1 s ?_
        exact List.eq_nil_of_length_eq_zero (Nat.le_zero.mp hlen)
    | succ n ih =>
        intro s hlen
        rcases hq : s.callQueue with _ | ⟨c, rest⟩
        · exact case1 s hq
        · by_cases hk : k ≤ s.activeCalls
          · exact case2 s c rest hq hk
          · by_cases hp : returnsNativePromise (beh c) = true
            · exact case3 s c rest hq hk hp
            · refine case4 s c rest hq hk hp (ih _ ?_)
              simp only []
              rw [hq] at hlen
              simp at hlen
              omega
  intro s
  exact key s.callQueue.length s le_rfl

/-! ### Invariants of the controller -/

/-- Structural invariant: `activeCalls` counts exactly the in-flight calls;
the arrival history splits into the started calls followed by the still
queued ones (so starts happen in arrival order); and every started call is
in flight or settled, exactly once. -/
def InvC {E V : Type} (s : St E V) : Prop :=
  s.activeCalls = s.running.length ∧
  s.arrivals = s.started ++ s.callQueue ∧
  s.started.Perm (s.running ++ s.results.map Prod.fst)

/-- Quiescence: between atomic steps, a non-empty queue means capacity is
exhausted — `execQueue` never leaves admissible work waiting. -/
def Quiescent {E V : Type} (k : Nat) (s : St E V) : Prop :=
  s.callQueue ≠ [] → k ≤ s.activeCalls

/-- The full invariant maintained by every atomic step. -/
def Inv {E V : Type} (k : Nat) (s : St E V) : Prop :=
  InvC s ∧ s.activeCalls ≤ k ∧ Quiescent k s

theorem execQueue_arrivals {E V : Type} (k : Nat) (beh : Nat → JSRet)
    (s : St E V) : (execQueue k beh s).arrivals = s.arrivals := by
  induction s using execQueue_rec k beh with
  | case1 s h => rw [execQueue_nil k beh s h]
  | case2 s c rest h hk => rw [execQueue_full k beh s c rest h hk]
  | case3 s c rest h hk hp => rw [execQueue_start k beh s c rest h hk hp]
  | case4 s c rest h hk hp ih =>
      rw [execQueue_bad k beh s c rest h hk hp]
      simpa using ih

theorem execQueue_invC {E V : Type} (k : Nat) (beh : Nat → JSRet)
    (s : St E V) (hs : InvC s) : InvC (execQueue k beh s) := by
  induction s using execQueue_rec k beh with
  | case1 s h => rw [execQueue_nil k beh s h]; exact hs
  | case2 s c rest h hk => rw [execQueue_full k beh s c rest h hk]; exact hs
  | case3 s c rest h hk hp =>
      rw [execQueue_start k beh s c rest h hk hp]
      obtain ⟨h1, h2, h3⟩ := hs
      refine ⟨by simp [h1], ?_, ?_⟩
      · simp only []
        rw [h2, h]
        simp
      · simp only []
        refine (h3.append (List.Perm.refl [c])).trans ?_
        rw [List.append_assoc, List.append_assoc]
        exact List.Perm.append_left s.running List.perm_append_comm
  | case4 s c rest h hk hp ih =>
      rw [execQueue_bad k beh s c rest h hk hp]
      obtain ⟨h1, h2, h3⟩ := hs
      refine ih ⟨h1, ?_, ?_⟩
      · simp only []
        rw [h2, h]
        simp
      · have hp2 := h3.append (List.Perm.refl [c])
        rw [List.append_assoc] at hp2
        simpa using hp2

theorem execQueue_le {E V : Type} (k : Nat) (beh : Nat → JSRet)
    (s : St E V) (hs : s.activeCalls ≤ k) :
    (execQueue k beh s).activeCalls ≤ k := by
  induction s using execQueue_rec k beh with
  | case1 s h => rw [execQueue_nil k beh s h]; exact hs
  | case2 s c rest h hk => rw [execQueue_full k beh s c rest h hk]; exact hs
  | case3 s c rest h hk hp =>
      rw [execQueue_start k beh s c rest h hk hp]
      simp only []
      omega
  | case4 s c rest h hk hp ih =>
      rw [execQueue_bad k beh s c rest h hk hp]
      exact ih hs

theorem execQueue_quiescent {E V : Type} (k : Nat) (beh : Nat → JSRet)
    (s : St E V)
    (hs : s.callQueue ≠ [] → k ≤ s.activeCalls + 1 ∨ s.callQueue.length ≤ 1) :
    Quiescent k (execQueue k beh s) := by
  induction s using execQueue_rec k beh with
  | case1 s h =>
      rw [execQueue_nil k beh s h]
      intro hne
      exact absurd h hne
  | case2 s c rest h hk =>
      rw [execQueue_full k beh s c rest h hk]
      intro _
      exact hk
  | case3 s c rest h hk hp =>
      rw [execQueue_start k beh s c rest h hk hp]
      intro hne
      simp only [] at hne ⊢
      rcases hs (by rw [h]; simp) with h1 | h1
      · omega
      · rw [h] at h1
        simp at h1
        exact absurd h1 hne
  | case4 s c rest h hk hp ih =>
      rw [execQueue_bad k beh s c rest h hk hp]
      refine ih ?_
      intro hne
      simp only [] at hne
      rcases hs (by rw [h]; simp) with h1 | h1
      · exact Or.inl h1
      · rw [h] at h1
        simp at h1
        simp [h1] at hne

theorem execQueue_results_monotone {E V : Type} (k : Nat) (beh : Nat → JSRet)
    (s : St E V) (x : Nat × Except (ThroqueError E) V) (hx : x ∈ s.results) :
    x ∈ (execQueue k beh s).results := by
  induction s using execQueue_rec k beh with
  | case1 s h => rw [execQueue_nil k beh s h]; exact hx
  | case2 s c rest h hk => rw [execQueue_full k beh s c rest h hk]; exact hx
  | case3 s c rest h hk hp =>
      rw [execQueue_start k beh s c rest h hk hp]
      exact hx
  | case4 s c rest h hk hp ih =>
      rw [execQueue_bad k beh s c rest h hk hp]
      exact ih (by simp [hx])

theorem execQueue_started_monotone {E V : Type} (k : Nat) (beh : Nat → JSRet)
    (s : St E V) (x : Nat) (hx : x ∈ s.started) :
    x ∈ (execQueue k beh s).started := by
  induction s using execQueue_rec k beh with
  | case1 s h => rw [execQueue_nil k beh s h]; exact hx
  | case2 s c rest h hk => rw [execQueue_full k beh s c rest h hk]; exact hx
  | case3 s c rest h hk hp =>
      rw [execQueue_start k beh s c rest h hk hp]
      simp [hx]
  | case4 s c rest h hk hp ih =>
      rw [execQueue_bad k beh s c rest h hk hp]
      exact ih (by simp [hx])

theorem execQueue_measure {E V : Type} (k : Nat) (beh : Nat → JSRet)
    (s : St E V) :
    (execQueue k beh s).callQueue.length + (execQueue k beh s).running.length
      ≤ s.callQueue.length + s.running.length := by
  induction s using execQueue_rec k beh with
  | case1 s h => rw [execQueue_nil k beh s h]
  | case2 s c rest h hk => rw [execQueue_full k beh s c rest h hk]
  | case3 s c rest h hk hp =>
      rw [execQueue_start k beh s c rest h hk hp]
      simp only []
      rw [h]
      simp
      omega
  | case4 s c rest h hk hp ih =>
      rw [execQueue_bad k beh s c rest h hk hp]
      refine le_trans ih ?_
      simp only []
      rw [h]
      simp

theorem step_inv {E V : Type} (k : Nat) (beh : Nat → JSRet) (s : St E V)
    (ev : Ev E V) (hs : Inv k s) : Inv k (step k beh s ev) := by
  obtain ⟨⟨h1, h2, h3⟩, hle, hq⟩ := hs
  cases ev with
  | call c =>
      refine ⟨execQueue_invC k beh _ ⟨h1, ?_, h3⟩,
        execQueue_le k beh _ hle, execQueue_quiescent k beh _ ?_⟩
      · simp only []
        rw [h2]
        simp
      · intro _
        simp only []
        rcases hq0 : s.callQueue with _ | ⟨d, ds⟩
        · right
          simp
        · left
          have := hq (by rw [hq0]; simp)
          omega
  | settle c r =>
      by_cases hc : c ∈ s.running
      · simp only [step, if_pos hc]
        have hlen : 1 ≤ s.running.length :=
          List.length_pos.mpr (List.ne_nil_of_mem hc)
        refine ⟨execQueue_invC k beh _ ⟨?_, h2, ?_⟩,
          execQueue_le k beh _ (by simp only []; omega),
          execQueue_quiescent k beh _ ?_⟩
        · simp only []
          rw [List.length_erase_of_mem hc]
          omega
        · simp only [List.map_append, List.map_cons, List.map_nil]
          have hperm : s.running.Perm (c :: s.running.erase c) :=
            List.perm_cons_erase hc
          refine h3.trans ?_
          refine (hperm.append (List.Perm.refl (s.results.map Prod.fst))).trans ?_
          have hstep :
              (([c] ++ (s.running.erase c ++ s.results.map Prod.fst)) :
                List Nat).Perm
                ((s.running.erase c ++ s.results.map Prod.fst) ++ [c]) :=
            List.perm_append_comm
          simpa [List.append_assoc] using hstep
        · intro hne
          simp only [] at hne ⊢
          left
          have hk := hq hne
          omega
      · simpa [step, if_neg hc] using ⟨⟨h1, h2, h3⟩, hle, hq⟩

theorem initSt_inv {E V : Type} (k : Nat) : Inv k (initSt : St E V) := by
  refine ⟨⟨rfl, rfl, List.Perm.refl _⟩, by simp [initSt], ?_⟩
  intro hne
  exact absurd rfl hne

theorem foldl_step_inv {E V : Type} (k : Nat) (beh : Nat → JSRet)
    (es : List (Ev E V)) :
    ∀ s : St E V, Inv k s → Inv k (es.foldl (step k beh) s) := by
  induction es with
  | nil => intro s hs; exact hs
  | cons ev es ih =>
      intro s hs
      exact ih (step k beh s ev) (step_inv k beh s ev hs)

theorem run_inv {E V : Type} (k : Nat) (beh : Nat → JSRet)
    (es : List (Ev E V)) : Inv k (run k beh es) :=
  foldl_step_inv k beh es initSt (initSt_inv k)

theorem run_append {E V : Type} (k : Nat) (beh : Nat → JSRet)
    (es es' : List (Ev E V)) :
    run k beh (es ++ es') = es'.foldl (step k beh) (run k beh es) := by
  simp [run, List.foldl_append]

theorem run_concat {E V : Type} (k : Nat) (beh : Nat → JSRet)
    (es : List (Ev E V)) (ev : Ev E V) :
    run k beh (es ++ [ev]) = step k beh (run k beh es) ev := by
  simp [run_append]

/-- Whenever the queue head is admissible (`activeCalls < maxCalls`),
`execQueue` invokes its `callWhenReady` — whether or not the underlying
function returns a genuine promise. -/
theorem execQueue_starts_head {E V : Type} (k : Nat) (beh : Nat → JSRet)
    (s : St E V) (c : Nat) (rest : List Nat)
    (hq : s.callQueue = c :: rest) (hlt : s.activeCalls < k) :
    c ∈ (execQueue k beh s).started := by
  by_cases hp : returnsNativePromise (beh c) = true
  · rw [execQueue_start k beh s c rest hq (by omega) hp]
    simp
  · rw [execQueue_bad k beh s c rest hq (by omega) hp]
    exact execQueue_started_monotone k beh _ c (by simp)

/-- A settlement step while the queue is non-empty and its head returns a
native promise: the settled call's outcome is recorded, `activeCalls` is
decremented and immediately re-incremented for the admitted head, which
starts running — the drain always proceeds, on failure exactly as on
success. -/
theorem settle_then_start {E V : Type} (k : Nat) (beh : Nat → JSRet)
    (s : St E V) (c : Nat) (r : Except E V) (d : Nat) (rest : List Nat)
    (hs : Inv k s) (hc : c ∈ s.running) (hq : s.callQueue = d :: rest)
    (hd : returnsNativePromise (beh d) = true) :
    step k beh s (Ev.settle c r) =
      { s with callQueue := rest,
               running := s.running.erase c ++ [d],
               started := s.started ++ [d],
               results := s.results ++ [(c, settleOutcome r)] } := by
  obtain ⟨⟨h1, h2, h3⟩, hle, hqui⟩ := hs
  have hact : s.activeCalls = k :=
    le_antisymm hle (hqui (by rw [hq]; simp))
  have hpos : 1 ≤ s.running.length :=
    List.length_pos.mpr (List.ne_nil_of_mem hc)
  simp only [step, if_pos hc]
  have hq1 : (⟨s.callQueue, s.activeCalls - 1, s.running.erase c,
      s.arrivals, s.started, s.results ++ [(c, settleOutcome r)]⟩ :
        St E V).callQueue = d :: rest := hq
  rw [execQueue_start k beh _ d rest hq1
    (by show ¬ k ≤ s.activeCalls - 1; omega) hd]
  have hfix : s.activeCalls - 1 + 1 = s.activeCalls := by omega
  simp [hfix]

/-- An invocation arriving at an idle controller (empty queue, capacity
available) whose underlying function does not return a native promise: the
synchronous throw is caught, the caller's promise is rejected with the usage
error, the increment is undone and the queue is left empty — the controller
state is not corrupted. -/
theorem call_bad_rejected {E V : Type} (k : Nat) (beh : Nat → JSRet)
    (s : St E V) (c : Nat)
    (hq : s.callQueue = []) (ha : s.activeCalls < k)
    (hbad : ¬ returnsNativePromise (beh c) = true) :
    step k beh s (Ev.call c) =
      { s with arrivals := s.arrivals ++ [c],
               started := s.started ++ [c],
               results := s.results ++
                 [(c, Except.error (ThroqueError.usageError usageErrorMsg))] } := by
  simp only [step]
  have hq1 : (⟨s.callQueue ++ [c], s.activeCalls, s.running,
      s.arrivals ++ [c], s.started, s.results⟩ : St E V).callQueue =
        c :: [] := by
    show s.callQueue ++ [c] = c :: []
    rw [hq]
    rfl
  rw [execQueue_bad k beh _ c [] hq1 (by show ¬ k ≤ s.activeCalls; omega) hbad]
  rw [execQueue_nil k beh _ rfl]
  rw [show (⟨[], s.activeCalls, s.running, s.arrivals ++ [c],
    s.started ++ [c], s.results ++
      [(c, Except.error (ThroqueError.usageError usageErrorMsg))]⟩ : St E V) =
    ⟨s.callQueue, s.activeCalls, s.running, s.arrivals ++ [c],
      s.started ++ [c], s.results ++
        [(c, Except.error (ThroqueError.usageError usageErrorMsg))]⟩ from
    by rw [hq]]

/-- Claim C2: for a controller with ceiling `k`, at every quiescent
observation point of every sequence of calls and completions `activeCalls`
equals the number of in-flight invocations (hence is never negative) and
never exceeds `k`; and the admit condition is the strict `activeCalls < k`:
`execQueue` leaves any state with `k ≤ activeCalls` untouched, while with
`activeCalls < k` it starts the queued head. -/
theorem ceiling_invariant {E V : Type} (k : Nat) (beh : Nat → JSRet)
    (es : List (Ev E V)) :
    (run k beh es).activeCalls = (run k beh es).running.length ∧
    (run k beh es).activeCalls ≤ k ∧
    (∀ s : St E V, k ≤ s.activeCalls → execQueue k beh s = s) ∧
    (∀ (s : St E V) (c : Nat) (rest : List Nat),
      s.callQueue = c :: rest → s.activeCalls < k →
      c ∈ (execQueue k beh s).started) := by
  obtain ⟨⟨h1, _, _⟩, hle, _⟩ := run_inv k beh es
  refine ⟨h1, hle, ?_, ?_⟩
  · intro s hk
    rcases hq : s.callQueue with _ | ⟨c, rest⟩
    · exact execQueue_nil k beh s hq
    · exact execQueue_full k beh s c rest hq hk
  · intro s c rest hq hlt
    exact execQueue_starts_head k beh s c rest hq hlt

/-- Witness for C2: a burst of three calls under ceiling 2 leaves exactly 2
active; a saturated state is left untouched; an admissible head is started. -/
theorem ceiling_invariant_witness :
    (run 2 (fun _ => JSRet.nativePromise)
      [Ev.call 0, Ev.call 1, Ev.call 2] : St Nat Nat).activeCalls ≤ 2 ∧
    execQueue 2 (fun _ => JSRet.nativePromise)
      (⟨[7], 2, [0, 1], [0, 1, 7], [0, 1], []⟩ : St Nat Nat) =
      ⟨[7], 2, [0, 1], [0, 1, 7], [0, 1], []⟩ ∧
    5 ∈ (execQueue 2 (fun _ => JSRet.nativePromise)
      (⟨[5], 1, [0], [0, 5], [0], []⟩ : St Nat Nat)).started :=
  ⟨(ceiling_invariant 2 (fun _ => JSRet.nativePromise)
      [Ev.call 0, Ev.call 1, Ev.call 2]).2.1,
   (ceiling_invariant 2 (fun _ => JSRet.nativePromise)
      ([] : List (Ev Nat Nat))).2.2.1 _ (by decide),
   (ceiling_invariant 2 (fun _ => JSRet.nativePromise)
      ([] : List (Ev Nat Nat))).2.2.2 _ 5 [] rfl (by decide)⟩

/-- Claim C3: queued calls are released in strict arrival order: after any
trace, the calls whose execution has started, in start order, followed by
the still-queued calls, in queue order, are exactly the arrival history in
arrival order — so no call ever starts while an earlier-arrived call is
still queued, across arbitrarily many capacity cycles. -/
theorem fifo_release_order {E V : Type} (k : Nat) (beh : Nat → JSRet)
    (es : List (Ev E V)) :
    (run k beh es).started ++ (run k beh es).callQueue =
      (run k beh es).arrivals :=
  ((run_inv k beh es).1.2.1).symm

/-- Claim C6: when the promise awaited for an in-flight call rejects with
`e`, the caller's promise is rejected with exactly that `e` (wrapped only in
the `opError` tag distinguishing it from the usage error — the value itself
is untouched), and the failure does not stall the controller: `activeCalls`
is decremented and `execQueue` drains the next queued call just as after a
success, leaving `activeCalls` back at its previous value and the queued
head started. -/
theorem error_propagation {E V : Type} (k : Nat) (beh : Nat → JSRet)
    (es : List (Ev E V)) (c : Nat) (e : E) (d : Nat) (rest : List Nat)
    (hc : c ∈ (run k beh es).running)
    (hq : (run k beh es).callQueue = d :: rest)
    (hd : returnsNativePromise (beh d) = true) :
    (c, Except.error (ThroqueError.opError e)) ∈
      (run k beh (es ++ [Ev.settle c (Except.error e)])).results ∧
    (run k beh (es ++ [Ev.settle c (Except.error e)])).activeCalls =
      (run k beh es).activeCalls ∧
    d ∈ (run k beh (es ++ [Ev.settle c (Except.error e)])).started := by
  rw [run_concat, settle_then_start k beh (run k beh es) c (Except.error e)
    d rest (run_inv k beh es) hc hq hd]
  refine ⟨?_, rfl, ?_⟩
  · simp [settleOutcome]
  · simp

/-- Witness for C6: ceiling 1, calls 0 and 1, then call 0 rejects with
error 7 — call 1 starts and the recorded outcome for call 0 is exactly
error 7. -/
theorem error_propagation_witness :
    0 ∈ (run 1 (fun _ => JSRet.nativePromise)
      [Ev.call 0, Ev.call 1] : St Nat Nat).running ∧
    (0, Except.error (ThroqueError.opError 7)) ∈
      (run 1 (fun _ => JSRet.nativePromise)
        ([Ev.call 0, Ev.call 1] ++ [Ev.settle 0 (Except.error 7)]) :
          St Nat Nat).results ∧
    1 ∈ (run 1 (fun _ => JSRet.nativePromise)
      ([Ev.call 0, Ev.call 1] ++ [Ev.settle 0 (Except.error 7)]) :
        St Nat Nat).started :=
  ⟨by decide,
   (error_propagation 1 (fun _ => JSRet.nativePromise) [Ev.call 0, Ev.call 1]
      0 7 1 [] (by decide) (by decide) rfl).1,
   (error_propagation 1 (fun _ => JSRet.nativePromise) [Ev.call 0, Ev.call 1]
      0 7 1 [] (by decide) (by decide) rfl).2.2⟩

/-- Claim C7: a wrapped call whose underlying function returns something
that is not a native promise has its promise rejected with the descriptive
usage error instead of hanging, and the controller is not corrupted:
`activeCalls` returns to its prior value, the queue is drained empty, and a
subsequent good call is admitted normally — one bad call cannot deadlock
the queue. -/
theorem usage_error_no_deadlock {E V : Type} (k : Nat) (beh : Nat → JSRet)
    (es : List (Ev E V)) (c d : Nat)
    (hbad : returnsNativePromise (beh c) = false)
    (hgood : returnsNativePromise (beh d) = true)
    (hq : (run k beh es).callQueue = [])
    (ha : (run k beh es).activeCalls < k) :
    (c, Except.error (ThroqueError.usageError usageErrorMsg)) ∈
      (run k beh (es ++ [Ev.call c])).results ∧
    (run k beh (es ++ [Ev.call c])).activeCalls =
      (run k beh es).activeCalls ∧
    (run k beh (es ++ [Ev.call c])).callQueue = [] ∧
    d ∈ (run k beh (es ++ [Ev.call c, Ev.call d])).started := by
  have h1 := call_bad_rejected k beh (run k beh es) c hq ha (by simp [hbad])
  have hsplit : es ++ [Ev.call c, Ev.call d] =
      (es ++ [Ev.call c]) ++ [Ev.call d] := by simp
  refine ⟨?_, ?_, ?_, ?_⟩
  · rw [run_concat, h1]
    simp
  · rw [run_concat, h1]
  · rw [run_concat, h1]
    exact hq
  · rw [hsplit, run_concat, run_concat, h1]
    simp only [step]
    refine execQueue_starts_head k beh _ d [] ?_ ?_
    · show (run k beh es).callQueue ++ [d] = d :: []
      rw [hq]
      rfl
    · exact ha

/-- Witness for C7: ceiling 1, call 0 returns a plain value, call 1 a
native promise; call 0 is rejected with the usage error and call 1 still
starts. -/
theorem usage_error_no_deadlock_witness :
    (0, Except.error (ThroqueError.usageError usageErrorMsg)) ∈
      (run 1 (fun n => if n = 0 then JSRet.plainValue else JSRet.nativePromise)
        (([] : List (Ev Nat Nat)) ++ [Ev.call 0])).results ∧
    1 ∈ (run 1 (fun n => if n = 0 then JSRet.plainValue else JSRet.nativePromise)
        (([] : List (Ev Nat Nat)) ++ [Ev.call 0, Ev.call 1])).started :=
  ⟨(usage_error_no_deadlock 1
      (fun n => if n = 0 then JSRet.plainValue else JSRet.nativePromise)
      ([] : List (Ev Nat Nat)) 0 1 rfl rfl rfl (by decide)).1,
   (usage_error_no_deadlock 1
      (fun n => if n = 0 then JSRet.plainValue else JSRet.nativePromise)
      ([] : List (Ev Nat Nat)) 0 1 rfl rfl rfl (by decide)).2.2.2⟩

/-- Claim C10: the validity check `fttPromise && fttPromise.constructor ==
Promise` accepts exactly native `Promise` instances; a thenable that does
support continuation registration, or an instance of a `Promise` subclass,
fails it, and such a call's promise is rejected with the usage error. -/
theorem native_promise_only {E V : Type} (k : Nat) (beh : Nat → JSRet)
    (es : List (Ev E V)) (c : Nat)
    (hth : beh c = JSRet.thenable ∨ beh c = JSRet.subclassPromise)
    (hq : (run k beh es).callQueue = [])
    (ha : (run k beh es).activeCalls < k) :
    (∀ r : JSRet, returnsNativePromise r = true ↔ r = JSRet.nativePromise) ∧
    (c, Except.error (ThroqueError.usageError usageErrorMsg)) ∈
      (run k beh (es ++ [Ev.call c])).results := by
  have hbad : ¬ returnsNativePromise (beh c) = true := by
    rcases hth with h | h <;> rw [h] <;> simp [returnsNativePromise]
  refine ⟨?_, ?_⟩
  · intro r
    cases r <;> simp [returnsNativePromise]
  · rw [run_concat, call_bad_rejected k beh (run k beh es) c hq ha hbad]
    simp

/-- Witness for C10: a thenable return value under ceiling 1 is rejected
with the usage error. -/
theorem native_promise_only_witness :
    (0, Except.error (ThroqueError.usageError usageErrorMsg)) ∈
      (run 1 (fun _ => JSRet.thenable)
        (([] : List (Ev Nat Nat)) ++ [Ev.call 0])).results :=
  (native_promise_only 1 (fun _ => JSRet.thenable) ([] : List (Ev Nat Nat))
    0 (Or.inl rfl) rfl (by decide)).2

/-! ### Liveness -/

/-- A step supplied by the environment: the settlement of an awaited
promise (the hypothesis of claim C9 that the underlying operation always
eventually settles is rendered as the availability of such steps). -/
def IsSettleEv {E V : Type} : Ev E V → Prop
  | .settle _ _ => True
  | .call _ => False

theorem drain_measure {E V : Type} (k : Nat) (beh : Nat → JSRet)
    (es : List (Ev E V)) (c : Nat) (r : Except E V)
    (hc : c ∈ (run k beh es).running) :
    (run k beh (es ++ [Ev.settle c r])).callQueue.length +
      (run k beh (es ++ [Ev.settle c r])).running.length <
    (run k beh es).callQueue.length + (run k beh es).running.length := by
  have hpos : 1 ≤ (run k beh es).running.length :=
    List.length_pos.mpr (List.ne_nil_of_mem hc)
  rw [run_concat]
  simp only [step, if_pos hc]
  have hm := execQueue_measure k beh
    (⟨(run k beh es).callQueue, (run k beh es).activeCalls - 1,
      (run k beh es).running.erase c, (run k beh es).arrivals,
      (run k beh es).started,
      (run k beh es).results ++ [(c, settleOutcome r)]⟩ : St E V)
  simp only [] at hm
  rw [List.length_erase_of_mem hc] at hm
  omega

theorem drain_aux {E V : Type} [Inhabited V] (k : Nat) (beh : Nat → JSRet)
    (hk : 1 ≤ k) :
    ∀ (n : Nat) (es : List (Ev E V)),
      (run k beh es).callQueue.length + (run k beh es).running.length ≤ n →
      ∃ es' : List (Ev E V), (∀ ev ∈ es', IsSettleEv ev) ∧
        (run k beh (es ++ es')).callQueue = [] ∧
        (run k beh (es ++ es')).running = [] := by
  intro n
  induction n with
  | zero =>
      intro es hlen
      refine ⟨[], by simp, ?_, ?_⟩
      · rw [List.append_nil]
        exact List.eq_nil_of_length_eq_zero (by omega)
      · rw [List.append_nil]
        exact List.eq_nil_of_length_eq_zero (by omega)
  | succ n ih =>
      intro es hlen
      by_cases hrun : (run k beh es).running = []
      · have hq0 : (run k beh es).callQueue = [] := by
          obtain ⟨⟨h1, _, _⟩, _, hqui⟩ := run_inv k beh es
          by_contra hne
          have := hqui hne
          rw [h1, hrun] at this
          simp at this
          omega
        exact ⟨[], by simp, by rw [List.append_nil]; exact hq0,
          by rw [List.append_nil]; exact hrun⟩
      · obtain ⟨c, cs, hcs⟩ := List.exists_cons_of_ne_nil hrun
        have hc : c ∈ (run k beh es).running := by rw [hcs]; simp
        have hmeas := drain_measure k beh es c (Except.ok default) hc
        obtain ⟨es', hall, hq', hr'⟩ :=
          ih (es ++ [Ev.settle c (Except.ok default)]) (by omega)
        refine ⟨Ev.settle c (Except.ok default) :: es', ?_, ?_, ?_⟩
        · intro ev hev
          rcases List.mem_cons.mp hev with h | h
          · rw [h]; trivial
          · exact hall ev h
        · rw [show es ++ (Ev.settle c (Except.ok default) :: es') =
            (es ++ [Ev.settle c (Except.ok default)]) ++ es' from by simp]
          exact hq'
        · rw [show es ++ (Ev.settle c (Except.ok default) :: es') =
            (es ++ [Ev.settle c (Except.ok default)]) ++ es' from by simp]
          exact hr'

/-- Claim C9: with a positive ceiling, after any trace of calls and
completions there is a finite schedule consisting only of settlement steps
(i.e. assuming every in-flight underlying operation eventually settles)
after which the queue and the in-flight set are empty and every call that
ever arrived has its caller promise settled (a recorded resolution or
rejection) — no invocation is starved. -/
theorem eventual_settlement {E V : Type} [Inhabited V] (k : Nat)
    (beh : Nat → JSRet) (hk : 1 ≤ k) (es : List (Ev E V)) :
    ∃ es' : List (Ev E V), (∀ ev ∈ es', IsSettleEv ev) ∧
      (run k beh (es ++ es')).callQueue = [] ∧
      (run k beh (es ++ es')).running = [] ∧
      ∀ c ∈ (run k beh (es ++ es')).arrivals,
        c ∈ (run k beh (es ++ es')).results.map Prod.fst := by
  obtain ⟨es', hall, hq, hr⟩ := drain_aux k beh hk
    ((run k beh es).callQueue.length + (run k beh es).running.length)
    es le_rfl
  refine ⟨es', hall, hq, hr, ?_⟩
  intro c hcarr
  obtain ⟨⟨h1, h2, h3⟩, _, _⟩ := run_inv k beh (es ++ es')
  rw [h2, hq, List.append_nil] at hcarr
  have hmem := h3.mem_iff.mp hcarr
  rw [hr] at hmem
  simpa using hmem

/-- Witness for C9: ceiling 1 with two competing calls — a settlement
schedule exists finishing both. -/
theorem eventual_settlement_witness :
    ∃ es' : List (Ev Nat Nat), (∀ ev ∈ es', IsSettleEv ev) ∧
      (run 1 (fun _ => JSRet.nativePromise)
        ([Ev.call 0, Ev.call 1] ++ es')).callQueue = [] ∧
      (run 1 (fun _ => JSRet.nativePromise)
        ([Ev.call 0, Ev.call 1] ++ es')).running = [] ∧
      ∀ c ∈ (run 1 (fun _ => JSRet.nativePromise)
        ([Ev.call 0, Ev.call 1] ++ es')).arrivals,
        c ∈ (run 1 (fun _ => JSRet.nativePromise)
          ([Ev.call 0, Ev.call 1] ++ es')).results.map Prod.fst :=
  eventual_settlement 1 (fun _ => JSRet.nativePromise) (by decide)
    [Ev.call 0, Ev.call 1]

/-! ### Module-level state shared across `throttleAndQueue` calls

Node.js caches modules: `require('./throque.js')` evaluates the module body
once per process, so the top-level bindings `callQueue`, `activeCalls` and
`maxCalls` of `lib/throque.js` are one single set of variables, closed over
by every throttled function the exported `throttleAndQueue` ever returns.
(The module's header comment asserts the opposite — that these variables
"are not shared between seperate instances of throttled functions" — but
nothing in the code re-evaluates the module per call.) -/

/-- The module-level mutable bindings of `lib/throque.js`.  `maxCalls` is
declared without an initializer (`let maxCalls;`), modelled as `none` until
first assigned. -/
structure ModuleState where
  callQueue : List Nat
  activeCalls : Nat
  maxCalls : Option Nat
deriving DecidableEq

/-- Module state right after `require` evaluates `lib/throque.js`:
`new Queue()`, `activeCalls = 0`, `maxCalls` undefined. -/
def moduleInit : ModuleState := ⟨[], 0, none⟩

/-- Effect of one call `throttleAndQueue(functionToThrottle,
maxConcurrentCalls, returnsPromise)` on the module state: the single
assignment `maxCalls = maxConcurrentCalls`.  The returned throttled
function closes over these same module bindings, so the ceiling any wrapped
operation observes is this shared `maxCalls`. -/
def throttleAndQueue (s : ModuleState) (maxConcurrentCalls : Nat) :
    ModuleState :=
  { s with maxCalls := some maxConcurrentCalls }

/-- Claim C1 fails on the code: controller state is module-global, not
per-instance.  Evaluating the code at the failing input — construct a first
wrapped operation with ceiling 5, then a second with ceiling 1 — shows the
second construction overwrites the ceiling governing the first wrapped
operation (both close over the one `maxCalls`, alongside the one shared
`callQueue` and `activeCalls`), so constructing a second wrapped operation
does not leave the first one's controller state unchanged. -/
theorem throttleAndQueue_shares_module_state :
    (throttleAndQueue moduleInit 5).maxCalls = some 5 ∧
    (throttleAndQueue (throttleAndQueue moduleInit 5) 1).maxCalls = some 1 ∧
    (throttleAndQueue (throttleAndQueue moduleInit 5) 1).maxCalls ≠
      (throttleAndQueue moduleInit 5).maxCalls := by
  refine ⟨rfl, rfl, ?_⟩
  decide

end Throque
